import Mathlib

/-!
Verification of the semantic-version parser and comparator.

The source builds a `Version` from a string with one anchored Python regex
(optional dash before the pre-release block) and compares versions with
`__eq__`/`__lt__` plus the operators derived by `functools.total_ordering`.

The regex is embedded as a backtracking matcher over `List Char` that
returns every (captures, remainder) pair in Python's depth-first priority
order: ordered alternation, greedy star, leftmost result first.  Python's
`re.match` result corresponds to the head of the list after filtering by
the end anchor (`$` accepts the true end of input or a position just
before one final newline).  Python's `\d` (no `re.ASCII` flag) matches any
Unicode decimal digit (category Nd); it is embedded through an explicit
table of the Nd ranges of Unicode 14.0.0 (CPython 3.11's `unicodedata`).
The remaining character classes of the pattern are literal ASCII sets.
-/

/-- The literal ASCII class `[0-9]` of the source pattern. -/
def isDig (c : Char) : Bool := c.isDigit

/-- The ranges of Unicode category Nd (decimal digits), Unicode 14.0.0:
exactly the characters Python's `\d` matches without `re.ASCII`.  Every
range is an aligned run of blocks of ten, so a digit's decimal value is
its offset in its block of ten. -/
def ndRanges : List (Nat × Nat) := [
  (48, 57), (1632, 1641), (1776, 1785), (1984, 1993), (2406, 2415), (2534, 2543),
  (2662, 2671), (2790, 2799), (2918, 2927), (3046, 3055), (3174, 3183), (3302, 3311),
  (3430, 3439), (3558, 3567), (3664, 3673), (3792, 3801), (3872, 3881), (4160, 4169),
  (4240, 4249), (6112, 6121), (6160, 6169), (6470, 6479), (6608, 6617), (6784, 6793),
  (6800, 6809), (6992, 7001), (7088, 7097), (7232, 7241), (7248, 7257), (42528, 42537),
  (43216, 43225), (43264, 43273), (43472, 43481), (43504, 43513), (43600, 43609), (44016, 44025),
  (65296, 65305), (66720, 66729), (68912, 68921), (69734, 69743), (69872, 69881), (69942, 69951),
  (70096, 70105), (70384, 70393), (70736, 70745), (70864, 70873), (71248, 71257), (71360, 71369),
  (71472, 71481), (71904, 71913), (72016, 72025), (72784, 72793), (73040, 73049), (73120, 73129),
  (92768, 92777), (92864, 92873), (93008, 93017), (120782, 120831), (123200, 123209), (123632, 123641),
  (125264, 125273), (130032, 130041)]

/-- The class `\d` of the source pattern: any Unicode decimal digit.
The first two branches only short-circuit the table scan: the first Nd
range is 48-57 and the second starts at 1632, so no decimal digit lies
in between. -/
def isUniDigit (c : Char) : Bool :=
  if c.toNat ≤ 57 then decide (48 ≤ c.toNat)
  else if c.toNat < 1632 then false
  else ndRanges.any fun r => decide (r.1 ≤ c.toNat) && decide (c.toNat ≤ r.2)

/-- Decimal value of a Unicode digit (its offset in its block of ten),
as `unicodedata.decimal` / `int` use it. -/
def uniDigitVal (c : Char) : Nat :=
  ((ndRanges.find? fun r => decide (r.1 ≤ c.toNat) && decide (c.toNat ≤ r.2)).map
    fun r => (c.toNat - r.1) % 10).getD 0

/-- `[1-9]` from the source pattern. -/
def isNonzeroDigit (c : Char) : Bool := c.isDigit && c != '0'

/-- `[a-zA-Z-]` from the source pattern. -/
def isLetterHyphen (c : Char) : Bool := c.isAlpha || c == '-'

/-- `[0-9a-zA-Z-]` from the source pattern. -/
def isAlnumHyphen (c : Char) : Bool := c.isDigit || c.isAlpha || c == '-'

/-- Named-group captures recorded during a match. -/
abbrev Caps := List (String × List Char)

/-- A matcher returns every way to match a prefix of the input, as
(captures, remaining suffix), in Python's backtracking priority order. -/
abbrev Matcher := List Char → List (Caps × List Char)

/-- The empty pattern: consumes nothing. -/
def mEps : Matcher := fun s => [([], s)]

/-- A single character from a class. -/
def mChr (p : Char → Bool) : Matcher := fun s =>
  match s with
  | [] => []
  | c :: rest => if p c then [([], rest)] else []

/-- Concatenation of two patterns. -/
def mSeq (m₁ m₂ : Matcher) : Matcher := fun s =>
  (m₁ s).flatMap fun q => (m₂ q.2).map fun r => (q.1 ++ r.1, r.2)

/-- Ordered alternation `a|b`: all results of `a` before all results of `b`. -/
def mAlt (m₁ m₂ : Matcher) : Matcher := fun s => m₁ s ++ m₂ s

/-- Greedy option `a?`: try `a`, fall back to the empty match. -/
def mOpt (m : Matcher) : Matcher := mAlt m mEps

/-- Named capture group `(?P<n>a)`: records the consumed substring. -/
def mGrp (n : String) (m : Matcher) : Matcher := fun s =>
  (m s).map fun q => (q.1 ++ [(n, s.take (s.length - q.2.length))], q.2)

/-- Greedy star over a character class, `p*`: offer the longest run first,
then shorter prefixes of that run, down to the empty match. -/
def mStarChr (p : Char → Bool) : Matcher := fun s =>
  ((List.range ((s.takeWhile p).length + 1)).reverse).map fun i => ([], s.drop i)

/-- Greedy star over a matcher, with fuel; each iteration must consume at
least one character (true of every star body in the source pattern). -/
def mMany (body : Matcher) : Nat → Matcher
  | 0 => mEps
  | fuel+1 => fun s =>
    ((body s).flatMap fun q =>
      if q.2.length < s.length then (mMany body fuel q.2).map fun r => (q.1 ++ r.1, r.2)
      else []) ++ [([], s)]

/-- Greedy star `a*`; the input length bounds the number of iterations. -/
def mStar (body : Matcher) : Matcher := fun s => mMany body s.length s

/-- `0|[1-9]\d*` — the major/minor/patch pattern of the source regex;
the digits after the leading `[1-9]` are `\d`, i.e. Unicode digits. -/
def numericIdM : Matcher :=
  mAlt (mChr (fun c => c == '0')) (mSeq (mChr isNonzeroDigit) (mStarChr isUniDigit))

/-- `0|[1-9]\d*|[0-9]*[a-zA-Z-][0-9a-zA-Z-]*` — one pre-release identifier. -/
def preIdM : Matcher :=
  mAlt (mChr (fun c => c == '0'))
    (mAlt (mSeq (mChr isNonzeroDigit) (mStarChr isUniDigit))
      (mSeq (mStarChr isDig) (mSeq (mChr isLetterHyphen) (mStarChr isAlnumHyphen))))

/-- The literal `\.` of the source pattern. -/
def dotM : Matcher := mChr (fun c => c == '.')

/-- The pre-release block: `id(\.id)*`. -/
def preReleaseM : Matcher := mSeq preIdM (mStar (mSeq dotM preIdM))

/-- `[0-9a-zA-Z-]+` — one build-metadata identifier. -/
def buildIdM : Matcher := mSeq (mChr isAlnumHyphen) (mStarChr isAlnumHyphen)

/-- The build-metadata block: `id(\.id)*`. -/
def buildM : Matcher := mSeq buildIdM (mStar (mSeq dotM buildIdM))

/-- The full source pattern between `^` and `$`:
`(?P<major>…)\.(?P<minor>…)\.(?P<patch>…)(?:-?(?P<pre_release>…))?(?:\+(?P<build_metadata>…))?`. -/
def semverM : Matcher :=
  mSeq (mGrp "major" numericIdM) (mSeq dotM
    (mSeq (mGrp "minor" numericIdM) (mSeq dotM
      (mSeq (mGrp "patch" numericIdM)
        (mSeq (mOpt (mSeq (mOpt (mChr (fun c => c == '-'))) (mGrp "pre_release" preReleaseM)))
          (mOpt (mSeq (mChr (fun c => c == '+')) (mGrp "build_metadata" buildM))))))))

/-- Python `$` (without `re.MULTILINE`): matches at the end of the string
or just before a single trailing newline. -/
def endOfInputOk (rem : List Char) : Bool := rem.isEmpty || rem == ['\n']

/-- `Version.parse_semver`: the first match of the anchored regex, if any;
`none` models the raised `ValueError` (`MalformedVersion`). -/
def parse_semver (version : String) : Option Caps :=
  ((semverM version.data).filter fun q => endOfInputOk q.2).head?.map fun q => q.1

/-- The `Version` data model: the five fields set by `Version.__init__`. -/
structure Version where
  major : Nat
  minor : Nat
  patch : Nat
  pre_release : Option String
  build_metadata : Option String
deriving DecidableEq

/-- Python `str.isdigit` on the identifier alphabet reachable from the
pattern: nonempty and all Unicode decimal digits.  (Compatibility digits
such as the superscript two also satisfy Python's `isdigit` but are
matched by no class of the pattern, so they occur in no capture; on them
`int` would raise.) -/
def pyIsDigitStr (l : List Char) : Bool := !l.isEmpty && l.all isUniDigit

/-- Value of a string of Unicode decimal digits, as Python `int` reads
it. -/
def digitsToNat (l : List Char) : Nat := l.foldl (fun acc c => 10 * acc + uniDigitVal c) 0

/-- Python `int(x)` on an optional capture, restricted to the digit-string
fragment the parser can produce: `none` (a `TypeError`) and non-digit
strings (a `ValueError`) fail. -/
def pyInt : Option (List Char) → Option Nat
  | none => none
  | some l => if pyIsDigitStr l then some (digitsToNat l) else none

/-- The two `ValueError` shapes `Version.__init__` can raise, each
carrying the offending input string. -/
inductive VersionError where
  | malformedVersion (input : String)
  | invalidNumericField (input : String)
deriving DecidableEq

/-- Result of `Version(raw)`: a value or a raised error. -/
inductive VersionResult where
  | ok (v : Version)
  | err (e : VersionError)
deriving DecidableEq

/-- `Version.__init__`: parse, convert the three numeric captures with
`int`, keep the two optional captures as raw strings. -/
def Version.ofString (version : String) : VersionResult :=
  match parse_semver version with
  | none => .err (.malformedVersion version)
  | some caps =>
    match pyInt (caps.lookup "major"), pyInt (caps.lookup "minor"), pyInt (caps.lookup "patch") with
    | some ma, some mi, some pa =>
      .ok { major := ma, minor := mi, patch := pa,
            pre_release := (caps.lookup "pre_release").map fun l => ⟨l⟩,
            build_metadata := (caps.lookup "build_metadata").map fun l => ⟨l⟩ }
    | _, _, _ => .err (.invalidNumericField version)

/-- Python `str.split(".")`: keeps empty segments, never returns `[]`. -/
def pySplitDot : List Char → List (List Char)
  | [] => [[]]
  | c :: rest =>
    match pySplitDot rest with
    | [] => [[]]
    | seg :: segs => if c == '.' then [] :: seg :: segs else (c :: seg) :: segs

/-- Python string `<`: lexicographic comparison by code point. -/
def pyStrLt : List Char → List Char → Bool
  | [], [] => false
  | [], _ :: _ => true
  | _ :: _, [] => false
  | c :: cs, d :: ds => if c == d then pyStrLt cs ds else decide (c < d)

/-- The body of the loop in `compare_pre_release`, applied to one pair of
distinct identifiers. -/
def identLtPy (x y : List Char) : Bool :=
  if pyIsDigitStr x && pyIsDigitStr y then decide (digitsToNat x < digitsToNat y)
  else if pyIsDigitStr x || pyIsDigitStr y then pyIsDigitStr x
  else pyStrLt x y

/-- The `for … in zip` loop of `compare_pre_release`, followed by the
final length comparison. -/
def comparePartsPy : List (List Char) → List (List Char) → Bool
  | x :: xs, y :: ys => if x == y then comparePartsPy xs ys else identLtPy x y
  | xs, ys => decide (xs.length < ys.length)

/-- `Version.compare_pre_release`: true when `a`'s pre-release has lower
precedence than `b`'s. -/
def Version.compare_pre_release (a b : Version) : Bool :=
  match a.pre_release, b.pre_release with
  | none, none => false
  | some _, none => true
  | none, some _ => false
  | some p, some q => comparePartsPy (pySplitDot p.data) (pySplitDot q.data)

/-- `Version.__eq__`. -/
def Version.eq (a b : Version) : Bool :=
  a.major == b.major && a.minor == b.minor && a.patch == b.patch
    && a.pre_release == b.pre_release

/-- `Version.__lt__`. -/
def Version.lt (a b : Version) : Bool :=
  if Version.eq a b then false
  else if a.major != b.major then decide (a.major < b.major)
  else if a.minor != b.minor then decide (a.minor < b.minor)
  else if a.patch != b.patch then decide (a.patch < b.patch)
  else Version.compare_pre_release a b

/-- `__gt__` as filled in by `functools.total_ordering` from `__lt__`:
`not (self < other) and self != other`. -/
def Version.gt (a b : Version) : Bool := !Version.lt a b && !Version.eq a b

/-- `__le__` as filled in by `functools.total_ordering` from `__lt__`:
`self < other or self == other`. -/
def Version.le (a b : Version) : Bool := Version.lt a b || Version.eq a b

/-- `__ge__` as filled in by `functools.total_ordering` from `__lt__`:
`not (self < other)`. -/
def Version.ge (a b : Version) : Bool := !Version.lt a b

/-- Python's default `__ne__`: the negation of `__eq__`. -/
def Version.ne (a b : Version) : Bool := !Version.eq a b

/-! ### Definitions transcribed from the specification (for refinement claims)

`specVersionM` follows the grammar of spec section 4.1 word for word:
`version := core ( separator? pre_release )? ( "+" build )?` with
`core := numeric_id "." numeric_id "." numeric_id`,
`numeric_id := "0" | [1-9][0-9]*`,
`pre_id := numeric_id | [0-9A-Za-z-]*[A-Za-z-][0-9A-Za-z-]*`,
`build_id := [0-9A-Za-z-]+`, matched against the whole string.
`specIdentLower` follows the identifier rule quoted in claim C4. -/

/-- Spec `numeric_id := "0" | [1-9][0-9]*`. -/
def specNumericIdM : Matcher :=
  mAlt (mChr (fun c => c == '0')) (mSeq (mChr isNonzeroDigit) (mStarChr isDig))

/-- Spec `pre_id := numeric_id | [0-9A-Za-z-]*[A-Za-z-][0-9A-Za-z-]*`. -/
def specPreIdM : Matcher :=
  mAlt specNumericIdM
    (mSeq (mStarChr isAlnumHyphen) (mSeq (mChr isLetterHyphen) (mStarChr isAlnumHyphen)))

/-- Spec `pre_release := pre_id ("." pre_id)*`. -/
def specPreReleaseM : Matcher := mSeq specPreIdM (mStar (mSeq dotM specPreIdM))

/-- Spec `build_id := [0-9A-Za-z-]+`. -/
def specBuildIdM : Matcher := mSeq (mChr isAlnumHyphen) (mStarChr isAlnumHyphen)

/-- Spec `build := build_id ("." build_id)*`. -/
def specBuildM : Matcher := mSeq specBuildIdM (mStar (mSeq dotM specBuildIdM))

/-- Spec `core := numeric_id "." numeric_id "." numeric_id`. -/
def specCoreM : Matcher :=
  mSeq specNumericIdM (mSeq dotM (mSeq specNumericIdM (mSeq dotM specNumericIdM)))

/-- Spec `version := core ( separator? pre_release )? ( "+" build )?`
with the optional `separator := "-"`. -/
def specVersionM : Matcher :=
  mSeq specCoreM
    (mSeq (mOpt (mSeq (mOpt (mChr (fun c => c == '-'))) specPreReleaseM))
      (mOpt (mSeq (mChr (fun c => c == '+')) specBuildM)))

/-- `numeric_id` of the amended grammar: `"0" | [1-9]\d*` where the
digits after the leading nonzero one may be any Unicode decimal digit —
the deviation from spec 4.1 that the implementation's `\d` forces. -/
def specUniNumericIdM : Matcher :=
  mAlt (mChr (fun c => c == '0')) (mSeq (mChr isNonzeroDigit) (mStarChr isUniDigit))

/-- `pre_id` of the amended grammar. -/
def specUniPreIdM : Matcher :=
  mAlt specUniNumericIdM
    (mSeq (mStarChr isAlnumHyphen) (mSeq (mChr isLetterHyphen) (mStarChr isAlnumHyphen)))

/-- `pre_release` of the amended grammar. -/
def specUniPreReleaseM : Matcher := mSeq specUniPreIdM (mStar (mSeq dotM specUniPreIdM))

/-- `core` of the amended grammar. -/
def specUniCoreM : Matcher :=
  mSeq specUniNumericIdM (mSeq dotM (mSeq specUniNumericIdM (mSeq dotM specUniNumericIdM)))

/-- The spec-4.1 grammar amended only as the implementation forces: in
`numeric_id`, digits after the leading `[1-9]` may be any Unicode
decimal digit; the build block is unchanged. -/
def specUniVersionM : Matcher :=
  mSeq specUniCoreM
    (mSeq (mOpt (mSeq (mOpt (mChr (fun c => c == '-'))) specUniPreReleaseM))
      (mOpt (mSeq (mChr (fun c => c == '+')) specBuildM)))

/-- The identifier comparison rule as worded in claim C4: two fully
numeric identifiers compare as integers, a numeric identifier is lower
than an alphanumeric one, two non-numeric identifiers compare as plain
ordinal strings. -/
def specIdentLower (x y : List Char) : Bool :=
  if pyIsDigitStr x then (if pyIsDigitStr y then decide (digitsToNat x < digitsToNat y) else true)
  else if pyIsDigitStr y then false
  else pyStrLt x y

/-- `rem` is reachable: some result of `m` on `s` leaves exactly `rem`. -/
def Rm (m : Matcher) (s rem : List Char) : Prop := ∃ c, (c, rem) ∈ m s

/-- `m₁` and `m₂` leave exactly the same sets of unconsumed suffixes on
every input: the two patterns accept the same decompositions. -/
def SameRems (m₁ m₂ : Matcher) : Prop := ∀ s rem : List Char, Rm m₁ s rem ↔ Rm m₂ s rem

/-- Every result of `m` leaves a suffix of the input: the match consumed
an initial segment. -/
def MatchShrinks (m : Matcher) : Prop := ∀ s q, q ∈ m s → ∃ u, s = u ++ q.2

/-- Every result of `m` carries no captures (true of every group-free
sub-pattern of the source regex). -/
def CapsFree (m : Matcher) : Prop := ∀ s q, q ∈ m s → q.1 = []

/-! ### Inversion lemmas for the matcher combinators -/

theorem mem_mEps {s : List Char} {q : Caps × List Char} : q ∈ mEps s ↔ q = ([], s) := by
  simp [mEps]

theorem mem_mChr {p : Char → Bool} {s : List Char} {q : Caps × List Char} :
    q ∈ mChr p s ↔ ∃ c rest, s = c :: rest ∧ p c = true ∧ q = ([], rest) := by
  constructor
  · intro hq
    cases s with
    | nil => simp [mChr] at hq
    | cons c rest =>
      simp only [mChr] at hq
      by_cases h : p c = true
      · rw [if_pos h] at hq
        simp only [List.mem_singleton] at hq
        exact ⟨c, rest, rfl, h, hq⟩
      · rw [if_neg h] at hq
        simp at hq
  · rintro ⟨c, rest, rfl, hp, rfl⟩
    simp [mChr, hp]

theorem mem_mSeq {m₁ m₂ : Matcher} {s : List Char} {q : Caps × List Char} :
    q ∈ mSeq m₁ m₂ s ↔ ∃ a ∈ m₁ s, ∃ r ∈ m₂ a.2, q = (a.1 ++ r.1, r.2) := by
  simp only [mSeq, List.mem_flatMap, List.mem_map]
  constructor
  · rintro ⟨a, ha, r, hr, hq⟩; exact ⟨a, ha, r, hr, hq.symm⟩
  · rintro ⟨a, ha, r, hr, hq⟩; exact ⟨a, ha, r, hr, hq.symm⟩

theorem mem_mAlt {m₁ m₂ : Matcher} {s : List Char} {q : Caps × List Char} :
    q ∈ mAlt m₁ m₂ s ↔ q ∈ m₁ s ∨ q ∈ m₂ s := by
  simp [mAlt]

theorem mem_mOpt {m : Matcher} {s : List Char} {q : Caps × List Char} :
    q ∈ mOpt m s ↔ q ∈ m s ∨ q = ([], s) := by
  simp [mOpt, mem_mAlt, mem_mEps]

theorem mem_mGrp {n : String} {m : Matcher} {s : List Char} {q : Caps × List Char} :
    q ∈ mGrp n m s ↔
      ∃ r ∈ m s, q = (r.1 ++ [(n, s.take (s.length - r.2.length))], r.2) := by
  simp only [mGrp, List.mem_map]
  constructor
  · rintro ⟨r, hr, hq⟩; exact ⟨r, hr, hq.symm⟩
  · rintro ⟨r, hr, hq⟩; exact ⟨r, hr, hq.symm⟩

theorem mem_mStarChr {p : Char → Bool} {s : List Char} {q : Caps × List Char} :
    q ∈ mStarChr p s ↔ ∃ i, i ≤ (s.takeWhile p).length ∧ q = ([], s.drop i) := by
  simp only [mStarChr, List.mem_map, List.mem_reverse, List.mem_range]
  constructor
  · rintro ⟨i, hi, hq⟩; exact ⟨i, Nat.lt_succ_iff.mp hi, hq.symm⟩
  · rintro ⟨i, hi, hq⟩; exact ⟨i, Nat.lt_succ_iff.mpr hi, hq.symm⟩

theorem flatMap_nil_of_forall {α β : Type} (l : List α) (f : α → List β)
    (h : ∀ a, f a = []) : l.flatMap f = [] := by
  induction l with
  | nil => rfl
  | cons a t ih => simp [List.flatMap_cons, h a, ih]

theorem mMany_nil (body : Matcher) : ∀ f, mMany body f [] = [([], [])]
  | 0 => rfl
  | f+1 => by
    simp only [mMany, List.length_nil]
    rw [flatMap_nil_of_forall _ _ fun q => if_neg (Nat.not_lt_zero _)]
    rfl

theorem mMany_fuel_eq (body : Matcher) :
    ∀ (n : Nat) (s : List Char) (f g : Nat), s.length ≤ n → s.length ≤ f → s.length ≤ g →
      mMany body f s = mMany body g s := by
  intro n
  induction n with
  | zero =>
    intro s f g hn _ _
    have hs : s = [] := List.length_eq_zero.mp (Nat.le_zero.mp hn)
    subst hs
    rw [mMany_nil, mMany_nil]
  | succ n ih =>
    intro s f g hn hf hg
    cases s with
    | nil => rw [mMany_nil, mMany_nil]
    | cons c t =>
      have hlen : (c :: t).length = t.length + 1 := rfl
      obtain ⟨f', rfl⟩ : ∃ f', f = f' + 1 := ⟨f - 1, by omega⟩
      obtain ⟨g', rfl⟩ : ∃ g', g = g' + 1 := ⟨g - 1, by omega⟩
      simp only [mMany]
      congr 1
      have hF : (fun q : Caps × List Char =>
          if q.2.length < (c :: t).length then
            (mMany body f' q.2).map fun r => (q.1 ++ r.1, r.2)
          else []) =
          (fun q : Caps × List Char =>
            if q.2.length < (c :: t).length then
              (mMany body g' q.2).map fun r => (q.1 ++ r.1, r.2)
            else []) := by
        funext q
        by_cases h : q.2.length < (c :: t).length
        · rw [if_pos h, if_pos h, ih q.2 f' g' (by omega) (by omega) (by omega)]
        · rw [if_neg h, if_neg h]
      rw [hF]

theorem mStar_unfold (body : Matcher) (s : List Char) :
    mStar body s =
      ((body s).flatMap fun q =>
        if q.2.length < s.length then (mStar body q.2).map fun r => (q.1 ++ r.1, r.2)
        else []) ++ [([], s)] := by
  cases s with
  | nil =>
    show mMany body ([] : List Char).length [] = _
    rw [mMany_nil]
    simp only [List.length_nil]
    rw [flatMap_nil_of_forall _ _ fun q => if_neg (Nat.not_lt_zero _)]
    rfl
  | cons c t =>
    show mMany body (t.length + 1) (c :: t) = _
    simp only [mMany]
    congr 1
    have hF : (fun q : Caps × List Char =>
        if q.2.length < (c :: t).length then
          (mMany body t.length q.2).map fun r => (q.1 ++ r.1, r.2)
        else []) =
        (fun q : Caps × List Char =>
          if q.2.length < (c :: t).length then
            (mStar body q.2).map fun r => (q.1 ++ r.1, r.2)
          else []) := by
      funext q
      by_cases h : q.2.length < (c :: t).length
      · have e : (c :: t).length = t.length + 1 := rfl
        rw [if_pos h, if_pos h,
          mMany_fuel_eq body q.2.length q.2 t.length q.2.length le_rfl (by omega) le_rfl]
        rfl
      · rw [if_neg h, if_neg h]
    rw [hF]

theorem mem_mStar {body : Matcher} {s : List Char} {q : Caps × List Char} :
    q ∈ mStar body s ↔
      (∃ a ∈ body s, a.2.length < s.length ∧ ∃ r ∈ mStar body a.2, q = (a.1 ++ r.1, r.2))
      ∨ q = ([], s) := by
  rw [mStar_unfold]
  simp only [List.mem_append, List.mem_flatMap, List.mem_singleton]
  constructor
  · rintro (⟨a, ha, hq⟩ | hq)
    · by_cases h : a.2.length < s.length
      · rw [if_pos h] at hq
        simp only [List.mem_map] at hq
        obtain ⟨r, hr, hq⟩ := hq
        exact Or.inl ⟨a, ha, h, r, hr, hq.symm⟩
      · rw [if_neg h] at hq
        simp at hq
    · exact Or.inr hq
  · rintro (⟨a, ha, h, r, hr, hq⟩ | hq)
    · refine Or.inl ⟨a, ha, ?_⟩
      rw [if_pos h]
      simp only [List.mem_map]
      exact ⟨r, hr, hq.symm⟩
    · exact Or.inr hq

theorem shrink_mEps : MatchShrinks mEps := by
  intro s q hq
  rw [mem_mEps] at hq
  subst hq
  exact ⟨[], rfl⟩

theorem shrink_mChr (p : Char → Bool) : MatchShrinks (mChr p) := by
  intro s q hq
  rw [mem_mChr] at hq
  obtain ⟨c, rest, rfl, _, rfl⟩ := hq
  exact ⟨[c], rfl⟩

theorem shrink_mAlt {m₁ m₂ : Matcher} (h₁ : MatchShrinks m₁) (h₂ : MatchShrinks m₂) :
    MatchShrinks (mAlt m₁ m₂) := by
  intro s q hq
  rw [mem_mAlt] at hq
  rcases hq with hq | hq
  · exact h₁ s q hq
  · exact h₂ s q hq

theorem shrink_mOpt {m : Matcher} (h : MatchShrinks m) : MatchShrinks (mOpt m) :=
  shrink_mAlt h shrink_mEps

theorem shrink_mSeq {m₁ m₂ : Matcher} (h₁ : MatchShrinks m₁) (h₂ : MatchShrinks m₂) :
    MatchShrinks (mSeq m₁ m₂) := by
  intro s q hq
  rw [mem_mSeq] at hq
  obtain ⟨a, ha, r, hr, rfl⟩ := hq
  obtain ⟨u₁, hu₁⟩ := h₁ s a ha
  obtain ⟨u₂, hu₂⟩ := h₂ a.2 r hr
  exact ⟨u₁ ++ u₂, by rw [hu₁, hu₂, List.append_assoc]⟩

theorem shrink_mGrp {n : String} {m : Matcher} (h : MatchShrinks m) :
    MatchShrinks (mGrp n m) := by
  intro s q hq
  rw [mem_mGrp] at hq
  obtain ⟨r, hr, rfl⟩ := hq
  exact h s r hr

theorem shrink_mStarChr (p : Char → Bool) : MatchShrinks (mStarChr p) := by
  intro s q hq
  rw [mem_mStarChr] at hq
  obtain ⟨i, _, rfl⟩ := hq
  exact ⟨s.take i, (List.take_append_drop i s).symm⟩

theorem shrink_mStar {body : Matcher} (hb : MatchShrinks body) : MatchShrinks (mStar body) := by
  have H : ∀ n (s : List Char), s.length ≤ n → ∀ q, q ∈ mStar body s → ∃ u, s = u ++ q.2 := by
    intro n
    induction n with
    | zero =>
      intro s hs q hq
      rw [mem_mStar] at hq
      rcases hq with ⟨a, _, hlen, _⟩ | rfl
      · omega
      · exact ⟨[], rfl⟩
    | succ n ih =>
      intro s hs q hq
      rw [mem_mStar] at hq
      rcases hq with ⟨a, ha, hlen, r, hr, rfl⟩ | rfl
      · obtain ⟨u₁, hu₁⟩ := hb s a ha
        obtain ⟨u₂, hu₂⟩ := ih a.2 (by omega) r hr
        exact ⟨u₁ ++ u₂, by rw [hu₁, hu₂, List.append_assoc]⟩
      · exact ⟨[], rfl⟩
  exact fun s q hq => H s.length s le_rfl q hq

theorem capsfree_mEps : CapsFree mEps := by
  intro s q hq
  rw [mem_mEps] at hq
  subst hq
  rfl

theorem capsfree_mChr (p : Char → Bool) : CapsFree (mChr p) := by
  intro s q hq
  rw [mem_mChr] at hq
  obtain ⟨c, rest, _, _, rfl⟩ := hq
  rfl

theorem capsfree_mAlt {m₁ m₂ : Matcher} (h₁ : CapsFree m₁) (h₂ : CapsFree m₂) :
    CapsFree (mAlt m₁ m₂) := by
  intro s q hq
  rw [mem_mAlt] at hq
  rcases hq with hq | hq
  · exact h₁ s q hq
  · exact h₂ s q hq

theorem capsfree_mOpt {m : Matcher} (h : CapsFree m) : CapsFree (mOpt m) :=
  capsfree_mAlt h capsfree_mEps

theorem capsfree_mSeq {m₁ m₂ : Matcher} (h₁ : CapsFree m₁) (h₂ : CapsFree m₂) :
    CapsFree (mSeq m₁ m₂) := by
  intro s q hq
  rw [mem_mSeq] at hq
  obtain ⟨a, ha, r, hr, rfl⟩ := hq
  show a.1 ++ r.1 = []
  rw [h₁ s a ha, h₂ a.2 r hr]
  rfl

theorem capsfree_mStarChr (p : Char → Bool) : CapsFree (mStarChr p) := by
  intro s q hq
  rw [mem_mStarChr] at hq
  obtain ⟨i, _, rfl⟩ := hq
  rfl

theorem capsfree_mStar {body : Matcher} (hb : CapsFree body) : CapsFree (mStar body) := by
  have H : ∀ n (s : List Char), s.length ≤ n → ∀ q, q ∈ mStar body s → q.1 = [] := by
    intro n
    induction n with
    | zero =>
      intro s hs q hq
      rw [mem_mStar] at hq
      rcases hq with ⟨a, _, hlen, _⟩ | rfl
      · omega
      · rfl
    | succ n ih =>
      intro s hs q hq
      rw [mem_mStar] at hq
      rcases hq with ⟨a, ha, hlen, r, hr, rfl⟩ | rfl
      · show a.1 ++ r.1 = []
        rw [hb s a ha, ih a.2 (by omega) r hr]
        rfl
      · rfl
  exact fun s q hq => H s.length s le_rfl q hq

/-! ### Character-class and takeWhile helper lemmas -/

theorem isDig_of_isNonzeroDigit {c : Char} (h : isNonzeroDigit c = true) : isDig c = true := by
  simp only [isNonzeroDigit, Bool.and_eq_true] at h
  exact h.1

theorem isAlnumHyphen_of_isDig {c : Char} (h : isDig c = true) : isAlnumHyphen c = true := by
  simp only [isDig] at h
  simp [isAlnumHyphen, h]

theorem isAlnumHyphen_of_isLetterHyphen {c : Char} (h : isLetterHyphen c = true) :
    isAlnumHyphen c = true := by
  simp only [isLetterHyphen, Bool.or_eq_true] at h
  rcases h with h | h
  · simp [isAlnumHyphen, h]
  · simp [isAlnumHyphen, h]

theorem isDig_false_of_isLetterHyphen {c : Char} (h : isLetterHyphen c = true) :
    isDig c = false := by
  have h' : c.isAlpha = true ∨ c = '-' := by simpa [isLetterHyphen] using h
  rcases h' with ha | rfl
  · by_contra hd
    rw [Bool.not_eq_false] at hd
    have hd' : 48 ≤ c.val ∧ c.val ≤ 57 := by
      simpa [isDig, Char.isDigit, ge_iff_le] using hd
    have ha' : (65 ≤ c.val ∧ c.val ≤ 90) ∨ (97 ≤ c.val ∧ c.val ≤ 122) := by
      simpa [Char.isAlpha, Char.isUpper, Char.isLower, Bool.or_eq_true, Bool.and_eq_true,
        ge_iff_le] using ha
    have hd2 := hd'.2
    rw [UInt32.le_def, BitVec.le_def] at hd2
    rcases ha' with ⟨h1, _⟩ | ⟨h1, _⟩
    · rw [UInt32.le_def, BitVec.le_def] at h1
      have e1 : (65 : UInt32).toBitVec.toNat = 65 := rfl
      have e2 : (57 : UInt32).toBitVec.toNat = 57 := rfl
      omega
    · rw [UInt32.le_def, BitVec.le_def] at h1
      have e1 : (97 : UInt32).toBitVec.toNat = 97 := rfl
      have e2 : (57 : UInt32).toBitVec.toNat = 57 := rfl
      omega
  · decide

theorem isDig_of_alnum_not_letter {c : Char} (h : isAlnumHyphen c = true)
    (hn : isLetterHyphen c = false) : isDig c = true := by
  simp only [isAlnumHyphen, Bool.or_eq_true] at h
  rcases h with (hd | ha) | hh
  · exact hd
  · rw [isLetterHyphen.eq_def, ha] at hn
    simp at hn
  · rw [isLetterHyphen.eq_def, hh] at hn
    simp at hn

theorem isUniDigit_of_isNonzeroDigit {c : Char} (h : isNonzeroDigit c = true) :
    isUniDigit c = true := by
  have hd : Char.isDigit c = true := by
    simp only [isNonzeroDigit, Bool.and_eq_true] at h
    exact h.1
  have hb : 48 ≤ c.val ∧ c.val ≤ 57 := by
    simpa [Char.isDigit, ge_iff_le] using hd
  have h1 := hb.1
  have h2 := hb.2
  rw [UInt32.le_def, BitVec.le_def] at h1 h2
  have e1 : (48 : UInt32).toBitVec.toNat = 48 := rfl
  have e2 : (57 : UInt32).toBitVec.toNat = 57 := rfl
  have he : c.toNat = c.val.toBitVec.toNat := rfl
  have hn1 : 48 ≤ c.toNat := by omega
  have hn2 : c.toNat ≤ 57 := by omega
  unfold isUniDigit
  rw [if_pos hn2]
  simpa using hn1

theorem all_take_of_le_takeWhile {p : Char → Bool} :
    ∀ (l : List Char) (i : Nat), i ≤ (l.takeWhile p).length → (l.take i).all p = true := by
  intro l
  induction l with
  | nil => intro i _; simp
  | cons c t ih =>
    intro i hi
    by_cases hp : p c = true
    · rw [List.takeWhile_cons_of_pos hp] at hi
      cases i with
      | zero => simp
      | succ i =>
        simp only [List.length_cons, Nat.succ_le_succ_iff] at hi
        simp only [List.take_succ_cons, List.all_cons, hp, Bool.true_and]
        exact ih i hi
    · rw [List.takeWhile_cons_of_neg hp] at hi
      simp only [List.length_nil, Nat.le_zero] at hi
      subst hi
      simp

theorem takeWhile_append_of_all {p : Char → Bool} {l r : List Char} (h : l.all p = true) :
    (l ++ r).takeWhile p = l ++ r.takeWhile p := by
  induction l with
  | nil => rfl
  | cons c t ih =>
    simp only [List.all_cons, Bool.and_eq_true] at h
    simp only [List.cons_append, List.takeWhile_cons_of_pos h.1]
    rw [ih h.2]

theorem takeWhile_eq_of_head_neg {p : Char → Bool} {l : List Char} {c : Char} {r : List Char}
    (hall : l.all p = true) (hc : p c = false) : (l ++ c :: r).takeWhile p = l := by
  rw [takeWhile_append_of_all hall,
    List.takeWhile_cons_of_neg (by rw [hc]; exact Bool.false_ne_true), List.append_nil]

theorem take_consumed {s u rem : List Char} (h : s = u ++ rem) :
    s.take (s.length - rem.length) = u := by
  subst h
  rw [List.length_append, Nat.add_sub_cancel, List.take_left]

/-- A result of `0|[1-9]\d*` consumed a nonempty prefix of decimal
digits and carries no captures. -/
theorem numericId_consumed {s : List Char} {q : Caps × List Char} (hq : q ∈ numericIdM s) :
    ∃ u, s = u ++ q.2 ∧ q.1 = [] ∧ u ≠ [] ∧ u.all isUniDigit = true := by
  rcases mem_mAlt.mp hq with h | h
  · obtain ⟨c, rest, rfl, hc, rfl⟩ := mem_mChr.mp h
    refine ⟨[c], rfl, rfl, by simp, ?_⟩
    have : c = '0' := by simpa using hc
    subst this
    decide
  · obtain ⟨a, ha, r, hr, rfl⟩ := mem_mSeq.mp h
    obtain ⟨c, rest, rfl, hc, rfl⟩ := mem_mChr.mp ha
    obtain ⟨i, hi, rfl⟩ := mem_mStarChr.mp hr
    refine ⟨c :: rest.take i, ?_, rfl, by simp, ?_⟩
    · show c :: rest = (c :: rest.take i) ++ rest.drop i
      rw [List.cons_append, List.take_append_drop]
    · simp only [List.all_cons, Bool.and_eq_true]
      exact ⟨isUniDigit_of_isNonzeroDigit hc, all_take_of_le_takeWhile rest i hi⟩

theorem shrink_numericIdM : MatchShrinks numericIdM :=
  shrink_mAlt (shrink_mChr _) (shrink_mSeq (shrink_mChr _) (shrink_mStarChr _))

theorem shrink_preIdM : MatchShrinks preIdM :=
  shrink_mAlt (shrink_mChr _)
    (shrink_mAlt (shrink_mSeq (shrink_mChr _) (shrink_mStarChr _))
      (shrink_mSeq (shrink_mStarChr _) (shrink_mSeq (shrink_mChr _) (shrink_mStarChr _))))

theorem shrink_preReleaseM : MatchShrinks preReleaseM :=
  shrink_mSeq shrink_preIdM (shrink_mStar (shrink_mSeq (shrink_mChr _) shrink_preIdM))

theorem shrink_buildM : MatchShrinks buildM :=
  shrink_mSeq (shrink_mSeq (shrink_mChr _) (shrink_mStarChr _))
    (shrink_mStar (shrink_mSeq (shrink_mChr _) (shrink_mSeq (shrink_mChr _) (shrink_mStarChr _))))

theorem capsfree_preIdM : CapsFree preIdM :=
  capsfree_mAlt (capsfree_mChr _)
    (capsfree_mAlt (capsfree_mSeq (capsfree_mChr _) (capsfree_mStarChr _))
      (capsfree_mSeq (capsfree_mStarChr _) (capsfree_mSeq (capsfree_mChr _) (capsfree_mStarChr _))))

theorem capsfree_preReleaseM : CapsFree preReleaseM :=
  capsfree_mSeq capsfree_preIdM (capsfree_mStar (capsfree_mSeq (capsfree_mChr _) capsfree_preIdM))

theorem capsfree_buildM : CapsFree buildM :=
  capsfree_mSeq (capsfree_mSeq (capsfree_mChr _) (capsfree_mStarChr _))
    (capsfree_mStar (capsfree_mSeq (capsfree_mChr _)
      (capsfree_mSeq (capsfree_mChr _) (capsfree_mStarChr _))))

/-- Decomposition of the optional pre-release block `(?:-?(?P<pre_release>…))?`:
either it matched nothing, or it consumed an optional dash and then the
captured pre-release text. -/
theorem preOpt_decomp {s : List Char} {q : Caps × List Char}
    (hq : q ∈ mOpt (mSeq (mOpt (mChr (fun c => c == '-'))) (mGrp "pre_release" preReleaseM)) s) :
    q = ([], s) ∨
      ∃ d u, (d = ([] : List Char) ∨ d = ['-']) ∧ s = d ++ u ++ q.2 ∧
        q.1 = [("pre_release", u)] := by
  rcases mem_mOpt.mp hq with h | h
  · obtain ⟨a, ha, r, hr, rfl⟩ := mem_mSeq.mp h
    obtain ⟨r0, hr0, rfl⟩ := mem_mGrp.mp hr
    have hcf : r0.1 = [] := capsfree_preReleaseM _ _ hr0
    obtain ⟨u, hu⟩ := shrink_preReleaseM _ _ hr0
    have hcap : a.2.take (a.2.length - r0.2.length) = u := take_consumed hu
    rcases mem_mOpt.mp ha with hd | hd
    · obtain ⟨c, rest, heq, hc, rfl⟩ := mem_mChr.mp hd
      have hc' : c = '-' := by simpa using hc
      subst hc'
      refine Or.inr ⟨['-'], u, Or.inr rfl, ?_, ?_⟩
      · rw [heq, show rest = u ++ r0.2 from hu]
        simp
      · show ([] : Caps) ++ (r0.1 ++ [("pre_release", _)]) = _
        rw [hcf, hcap]
        rfl
    · subst hd
      refine Or.inr ⟨[], u, Or.inl rfl, ?_, ?_⟩
      · rw [show s = u ++ r0.2 from hu]
        rfl
      · show ([] : Caps) ++ (r0.1 ++ [("pre_release", _)]) = _
        rw [hcf, hcap]
        rfl
  · exact Or.inl h

/-- Decomposition of the optional build block `(?:\+(?P<build_metadata>…))?`. -/
theorem buildOpt_decomp {s : List Char} {q : Caps × List Char}
    (hq : q ∈ mOpt (mSeq (mChr (fun c => c == '+')) (mGrp "build_metadata" buildM)) s) :
    q = ([], s) ∨
      ∃ u, s = '+' :: (u ++ q.2) ∧ q.1 = [("build_metadata", u)] := by
  rcases mem_mOpt.mp hq with h | h
  · obtain ⟨a, ha, r, hr, rfl⟩ := mem_mSeq.mp h
    obtain ⟨r0, hr0, rfl⟩ := mem_mGrp.mp hr
    have hcf : r0.1 = [] := capsfree_buildM _ _ hr0
    obtain ⟨u, hu⟩ := shrink_buildM _ _ hr0
    have hcap : a.2.take (a.2.length - r0.2.length) = u := take_consumed hu
    obtain ⟨c, rest, heq, hc, rfl⟩ := mem_mChr.mp ha
    have hc' : c = '+' := by simpa using hc
    subst hc'
    refine Or.inr ⟨u, ?_, ?_⟩
    · rw [heq, show rest = u ++ r0.2 from hu]
    · show ([] : Caps) ++ (r0.1 ++ [("build_metadata", _)]) = _
      rw [hcf, hcap]
      rfl
  · exact Or.inl h

/-- Structural decomposition of any result of the full pattern: the input
splits into the three captured digit fields, the optional pre-release
segment (with its optional dash), the optional `+`-prefixed build segment,
and the unconsumed remainder; the capture list is exactly the five named
groups in order. -/
theorem semverM_decomp {s : List Char} {q : Caps × List Char} (hq : q ∈ semverM s) :
    ∃ (mj mi pa preSeg buildSeg : List Char) (preCap buildCap : Option (List Char)),
      s = mj ++ '.' :: (mi ++ '.' :: (pa ++ (preSeg ++ (buildSeg ++ q.2))))
      ∧ mj ≠ [] ∧ mj.all isUniDigit = true
      ∧ mi ≠ [] ∧ mi.all isUniDigit = true
      ∧ pa ≠ [] ∧ pa.all isUniDigit = true
      ∧ q.1 = [("major", mj), ("minor", mi), ("patch", pa)]
            ++ ((match preCap with | none => [] | some u => [("pre_release", u)])
            ++ (match buildCap with | none => [] | some u => [("build_metadata", u)]))
      ∧ (match preCap with
         | none => preSeg = []
         | some u => preSeg = u ∨ preSeg = '-' :: u)
      ∧ (match buildCap with
         | none => buildSeg = []
         | some u => buildSeg = '+' :: u) := by
  obtain ⟨a1, ha1, r1, hr1, rfl⟩ := mem_mSeq.mp hq
  obtain ⟨g1, hg1, rfl⟩ := mem_mGrp.mp ha1
  obtain ⟨mj, hs1, hg1c, hmjne, hmjall⟩ := numericId_consumed hg1
  have hcap1 : s.take (s.length - g1.2.length) = mj := take_consumed hs1
  obtain ⟨a2, ha2, r2, hr2, rfl⟩ := mem_mSeq.mp hr1
  obtain ⟨c2, t2, heq2, hc2, rfl⟩ := mem_mChr.mp ha2
  have hc2' : c2 = '.' := by simpa using hc2
  subst hc2'
  have heq2' : g1.2 = '.' :: t2 := heq2
  obtain ⟨a3, ha3, r3, hr3, rfl⟩ := mem_mSeq.mp hr2
  obtain ⟨g3, hg3, rfl⟩ := mem_mGrp.mp ha3
  obtain ⟨mi, hs3, hg3c, hmine, hmiall⟩ := numericId_consumed hg3
  have hs3' : t2 = mi ++ g3.2 := hs3
  have hcap3 : t2.take (t2.length - g3.2.length) = mi := take_consumed hs3'
  obtain ⟨a4, ha4, r4, hr4, rfl⟩ := mem_mSeq.mp hr3
  obtain ⟨c4, t4, heq4, hc4, rfl⟩ := mem_mChr.mp ha4
  have heq4' : g3.2 = c4 :: t4 := heq4
  have hc4' : c4 = '.' := by simpa using hc4
  subst hc4'
  obtain ⟨a5, ha5, r5, hr5, rfl⟩ := mem_mSeq.mp hr4
  obtain ⟨g5, hg5, rfl⟩ := mem_mGrp.mp ha5
  obtain ⟨pa, hs5, hg5c, hpane, hpaall⟩ := numericId_consumed hg5
  have hs5' : t4 = pa ++ g5.2 := hs5
  have hcap5 : t4.take (t4.length - g5.2.length) = pa := take_consumed hs5'
  obtain ⟨a6, ha6, r6, hr6, rfl⟩ := mem_mSeq.mp hr5
  have ha6' : a6 ∈ mOpt (mSeq (mOpt (mChr (fun c => c == '-')))
      (mGrp "pre_release" preReleaseM)) g5.2 := ha6
  rcases preOpt_decomp ha6' with h6 | ⟨d, u, hd, hs6, hc6⟩
  · subst h6
    rcases buildOpt_decomp hr6 with h7 | ⟨ub, hs7, hc7⟩
    · subst h7
      refine ⟨mj, mi, pa, [], [], none, none, ?_, hmjne, hmjall, hmine, hmiall, hpane, hpaall,
        ?_, rfl, rfl⟩
      · simp [hs1, heq2', hs3', heq4', hs5']
      · simp [hg1c, hg3c, hg5c, hcap1, hcap3, hcap5]
    · refine ⟨mj, mi, pa, [], '+' :: ub, none, some ub, ?_, hmjne, hmjall, hmine, hmiall,
        hpane, hpaall, ?_, rfl, rfl⟩
      · simp only [List.nil_append]
        have hs7' : g5.2 = '+' :: (ub ++ r6.2) := hs7
        simp [hs1, heq2', hs3', heq4', hs5', hs7']
      · have hc7' : r6.1 = [("build_metadata", ub)] := hc7
        simp [hg1c, hg3c, hg5c, hcap1, hcap3, hcap5, hc7']
  · rcases buildOpt_decomp hr6 with h7 | ⟨ub, hs7, hc7⟩
    · subst h7
      refine ⟨mj, mi, pa, d ++ u, [], some u, none, ?_, hmjne, hmjall, hmine, hmiall,
        hpane, hpaall, ?_, ?_, rfl⟩
      · simp [hs1, heq2', hs3', heq4', hs5', hs6]
      · simp [hg1c, hg3c, hg5c, hcap1, hcap3, hcap5, hc6]
      · rcases hd with rfl | rfl
        · exact Or.inl (by simp)
        · exact Or.inr (by simp)
    · refine ⟨mj, mi, pa, d ++ u, '+' :: ub, some u, some ub, ?_, hmjne, hmjall, hmine, hmiall,
        hpane, hpaall, ?_, ?_, rfl⟩
      · have hs7' : a6.2 = '+' :: (ub ++ r6.2) := hs7
        simp [hs1, heq2', hs3', heq4', hs5', hs6, hs7']
      · have hc7' : r6.1 = [("build_metadata", ub)] := hc7
        simp [hg1c, hg3c, hg5c, hcap1, hcap3, hcap5, hc6, hc7']
      · rcases hd with rfl | rfl
        · exact Or.inl (by simp)
        · exact Or.inr (by simp)

/-! ### Remainder-level characterizations and congruences -/

theorem Rm_mEps {s rem : List Char} : Rm mEps s rem ↔ rem = s := by
  unfold Rm
  constructor
  · rintro ⟨c, hc⟩
    have := mem_mEps.mp hc
    exact congrArg Prod.snd this
  · rintro rfl
    exact ⟨[], mem_mEps.mpr rfl⟩

theorem Rm_mChr {p : Char → Bool} {s rem : List Char} :
    Rm (mChr p) s rem ↔ ∃ c, s = c :: rem ∧ p c = true := by
  unfold Rm
  constructor
  · rintro ⟨cp, hc⟩
    obtain ⟨c, rest, rfl, hpc, heq⟩ := mem_mChr.mp hc
    have : rem = rest := congrArg Prod.snd heq
    subst this
    exact ⟨c, rfl, hpc⟩
  · rintro ⟨c, rfl, hpc⟩
    exact ⟨[], mem_mChr.mpr ⟨c, rem, rfl, hpc, rfl⟩⟩

theorem Rm_mSeq {a b : Matcher} {s rem : List Char} :
    Rm (mSeq a b) s rem ↔ ∃ mid, Rm a s mid ∧ Rm b mid rem := by
  unfold Rm
  constructor
  · rintro ⟨c, hc⟩
    obtain ⟨x, hx, r, hr, heq⟩ := mem_mSeq.mp hc
    have h2 : rem = r.2 := congrArg Prod.snd heq
    subst h2
    exact ⟨x.2, ⟨x.1, hx⟩, ⟨r.1, hr⟩⟩
  · rintro ⟨mid, ⟨c1, h1⟩, ⟨c2, h2⟩⟩
    exact ⟨c1 ++ c2, mem_mSeq.mpr ⟨(c1, mid), h1, (c2, rem), h2, rfl⟩⟩

theorem Rm_mAlt {a b : Matcher} {s rem : List Char} :
    Rm (mAlt a b) s rem ↔ Rm a s rem ∨ Rm b s rem := by
  unfold Rm
  constructor
  · rintro ⟨c, hc⟩
    rcases mem_mAlt.mp hc with h | h
    · exact Or.inl ⟨c, h⟩
    · exact Or.inr ⟨c, h⟩
  · rintro (⟨c, h⟩ | ⟨c, h⟩)
    · exact ⟨c, mem_mAlt.mpr (Or.inl h)⟩
    · exact ⟨c, mem_mAlt.mpr (Or.inr h)⟩

theorem Rm_mOpt {m : Matcher} {s rem : List Char} :
    Rm (mOpt m) s rem ↔ Rm m s rem ∨ rem = s := by
  unfold mOpt
  rw [Rm_mAlt, Rm_mEps]

theorem Rm_mGrp {n : String} {m : Matcher} {s rem : List Char} :
    Rm (mGrp n m) s rem ↔ Rm m s rem := by
  unfold Rm
  constructor
  · rintro ⟨c, hc⟩
    obtain ⟨r, hr, heq⟩ := mem_mGrp.mp hc
    have : rem = r.2 := congrArg Prod.snd heq
    subst this
    exact ⟨r.1, hr⟩
  · rintro ⟨c, hc⟩
    exact ⟨c ++ [(n, s.take (s.length - rem.length))], mem_mGrp.mpr ⟨(c, rem), hc, rfl⟩⟩

theorem Rm_mStarChr {p : Char → Bool} {s rem : List Char} :
    Rm (mStarChr p) s rem ↔ ∃ i, i ≤ (s.takeWhile p).length ∧ rem = s.drop i := by
  unfold Rm
  constructor
  · rintro ⟨c, hc⟩
    obtain ⟨i, hi, heq⟩ := mem_mStarChr.mp hc
    exact ⟨i, hi, congrArg Prod.snd heq⟩
  · rintro ⟨i, hi, rfl⟩
    exact ⟨[], mem_mStarChr.mpr ⟨i, hi, rfl⟩⟩

theorem Rm_mStar {body : Matcher} {s rem : List Char} :
    Rm (mStar body) s rem ↔
      (∃ mid, mid.length < s.length ∧ Rm body s mid ∧ Rm (mStar body) mid rem) ∨ rem = s := by
  unfold Rm
  constructor
  · rintro ⟨c, hc⟩
    rcases mem_mStar.mp hc with ⟨a, ha, hlen, r, hr, heq⟩ | heq
    · have : rem = r.2 := congrArg Prod.snd heq
      subst this
      exact Or.inl ⟨a.2, hlen, ⟨a.1, ha⟩, ⟨r.1, hr⟩⟩
    · exact Or.inr (congrArg Prod.snd heq)
  · rintro (⟨mid, hlen, ⟨c1, h1⟩, ⟨c2, h2⟩⟩ | rfl)
    · exact ⟨c1 ++ c2, mem_mStar.mpr (Or.inl ⟨(c1, mid), h1, hlen, (c2, rem), h2, rfl⟩)⟩
    · exact ⟨[], mem_mStar.mpr (Or.inr rfl)⟩

theorem sameRems_refl (m : Matcher) : SameRems m m := fun _ _ => Iff.rfl

theorem sameRems_trans {a b c : Matcher} (h₁ : SameRems a b) (h₂ : SameRems b c) :
    SameRems a c := fun s rem => (h₁ s rem).trans (h₂ s rem)

theorem sameRems_mSeq {a a' b b' : Matcher} (h₁ : SameRems a a') (h₂ : SameRems b b') :
    SameRems (mSeq a b) (mSeq a' b') := by
  intro s rem
  rw [Rm_mSeq, Rm_mSeq]
  exact exists_congr fun mid => and_congr (h₁ s mid) (h₂ mid rem)

theorem sameRems_mAlt {a a' b b' : Matcher} (h₁ : SameRems a a') (h₂ : SameRems b b') :
    SameRems (mAlt a b) (mAlt a' b') := by
  intro s rem
  rw [Rm_mAlt, Rm_mAlt]
  exact or_congr (h₁ s rem) (h₂ s rem)

theorem sameRems_mOpt {a a' : Matcher} (h : SameRems a a') : SameRems (mOpt a) (mOpt a') := by
  intro s rem
  rw [Rm_mOpt, Rm_mOpt]
  exact or_congr (h s rem) Iff.rfl

theorem sameRems_grp_drop (n : String) (m : Matcher) : SameRems (mGrp n m) m :=
  fun _ _ => Rm_mGrp

theorem sameRems_mStar {b b' : Matcher} (hb : SameRems b b') :
    SameRems (mStar b) (mStar b') := by
  have H : ∀ n (s : List Char), s.length ≤ n → ∀ rem,
      Rm (mStar b) s rem ↔ Rm (mStar b') s rem := by
    intro n
    induction n with
    | zero =>
      intro s hs rem
      rw [Rm_mStar, Rm_mStar]
      constructor
      · rintro (⟨mid, hlen, _⟩ | rfl)
        · omega
        · exact Or.inr rfl
      · rintro (⟨mid, hlen, _⟩ | rfl)
        · omega
        · exact Or.inr rfl
    | succ n ih =>
      intro s hs rem
      rw [Rm_mStar, Rm_mStar]
      refine or_congr (exists_congr fun mid => ?_) Iff.rfl
      refine and_congr_right fun hlen => and_congr (hb s mid) ?_
      exact ih mid (by omega) rem
  exact fun s rem => H s.length s le_rfl rem

theorem all_mono {p q : Char → Bool} (h : ∀ c, p c = true → q c = true) {l : List Char}
    (hl : l.all p = true) : l.all q = true := by
  rw [List.all_eq_true] at hl ⊢
  exact fun x hx => h x (hl x hx)

theorem split_first {p : Char → Bool} :
    ∀ (u : List Char), (∃ x ∈ u, p x = true) →
      ∃ d c e, u = d ++ c :: e ∧ p c = true ∧ d.all (fun x => !p x) = true := by
  intro u
  induction u with
  | nil =>
    rintro ⟨x, hx, _⟩
    cases hx
  | cons a t ih =>
    rintro ⟨x, hx, hpx⟩
    by_cases hpa : p a = true
    · exact ⟨[], a, t, rfl, hpa, rfl⟩
    · have hx' : x ∈ t := by
        rcases List.mem_cons.mp hx with rfl | h
        · exact absurd hpx hpa
        · exact h
      obtain ⟨d, c, e, heq, hc, hd⟩ := ih ⟨x, hx', hpx⟩
      refine ⟨a :: d, c, e, by rw [heq]; rfl, hc, ?_⟩
      cases hb : p a with
      | true => exact absurd hb hpa
      | false => simp [List.all_cons, hb, hd]

/-- The third alternative of the source pre-release identifier,
`[0-9]*[a-zA-Z-][0-9a-zA-Z-]*`, reaches `rem` exactly when the consumed
text is an alphanumeric-or-hyphen token containing a letter or hyphen. -/
theorem Rm_token_digitStar {s rem : List Char} :
    Rm (mSeq (mStarChr isDig) (mSeq (mChr isLetterHyphen) (mStarChr isAlnumHyphen))) s rem ↔
      ∃ u, s = u ++ rem ∧ u.all isAlnumHyphen = true ∧ ∃ x ∈ u, isLetterHyphen x = true := by
  rw [Rm_mSeq]
  constructor
  · rintro ⟨mid1, h1, h2⟩
    rw [Rm_mStarChr] at h1
    obtain ⟨i, hi, rfl⟩ := h1
    rw [Rm_mSeq] at h2
    obtain ⟨mid2, hc, h3⟩ := h2
    rw [Rm_mChr] at hc
    obtain ⟨c, heq, hcl⟩ := hc
    rw [Rm_mStarChr] at h3
    obtain ⟨j, hj, rfl⟩ := h3
    refine ⟨s.take i ++ c :: mid2.take j, ?_, ?_, ?_⟩
    · conv_lhs => rw [← List.take_append_drop i s]
      rw [heq]
      conv_lhs => rw [← List.take_append_drop j mid2]
      simp
    · have ha1 : (s.take i).all isAlnumHyphen = true :=
        all_mono (fun c h => isAlnumHyphen_of_isDig h) (all_take_of_le_takeWhile s i hi)
      have ha2 : (mid2.take j).all isAlnumHyphen = true :=
        all_take_of_le_takeWhile mid2 j hj
      simp [List.all_append, List.all_cons, ha1, ha2, isAlnumHyphen_of_isLetterHyphen hcl]
    · exact ⟨c, by simp, hcl⟩
  · rintro ⟨u, rfl, hall, hx⟩
    obtain ⟨d, c, e, rfl, hc, hd⟩ := split_first u hx
    simp only [List.all_append, List.all_cons, Bool.and_eq_true] at hall
    have hdall : d.all isDig = true := by
      rw [List.all_eq_true]
      intro x hxmem
      have h1 := List.all_eq_true.mp hall.1 x hxmem
      have h2 := List.all_eq_true.mp hd x hxmem
      have h2' : isLetterHyphen x = false := by simpa using h2
      exact isDig_of_alnum_not_letter h1 h2'
    have hcdig : isDig c = false := isDig_false_of_isLetterHyphen hc
    have htw : ((d ++ c :: e) ++ rem).takeWhile isDig = d := by
      rw [List.append_assoc, List.cons_append]
      exact takeWhile_eq_of_head_neg hdall hcdig
    refine ⟨c :: (e ++ rem), ?_, ?_⟩
    · rw [Rm_mStarChr]
      refine ⟨d.length, ?_, ?_⟩
      · rw [htw]
      · rw [List.append_assoc, List.cons_append, List.drop_left]
    · rw [Rm_mSeq]
      refine ⟨e ++ rem, ?_, ?_⟩
      · rw [Rm_mChr]
        exact ⟨c, rfl, hc⟩
      · rw [Rm_mStarChr]
        refine ⟨e.length, ?_, ?_⟩
        · rw [takeWhile_append_of_all hall.2.2]
          rw [List.length_append]
          exact Nat.le_add_right _ _
        · rw [List.drop_left]

/-- The second alternative of the spec pre-release identifier,
`[0-9A-Za-z-]*[A-Za-z-][0-9A-Za-z-]*`, reaches `rem` under exactly the
same condition. -/
theorem Rm_token_alnumStar {s rem : List Char} :
    Rm (mSeq (mStarChr isAlnumHyphen) (mSeq (mChr isLetterHyphen) (mStarChr isAlnumHyphen)))
        s rem ↔
      ∃ u, s = u ++ rem ∧ u.all isAlnumHyphen = true ∧ ∃ x ∈ u, isLetterHyphen x = true := by
  rw [Rm_mSeq]
  constructor
  · rintro ⟨mid1, h1, h2⟩
    rw [Rm_mStarChr] at h1
    obtain ⟨i, hi, rfl⟩ := h1
    rw [Rm_mSeq] at h2
    obtain ⟨mid2, hc, h3⟩ := h2
    rw [Rm_mChr] at hc
    obtain ⟨c, heq, hcl⟩ := hc
    rw [Rm_mStarChr] at h3
    obtain ⟨j, hj, rfl⟩ := h3
    refine ⟨s.take i ++ c :: mid2.take j, ?_, ?_, ?_⟩
    · conv_lhs => rw [← List.take_append_drop i s]
      rw [heq]
      conv_lhs => rw [← List.take_append_drop j mid2]
      simp
    · have ha1 : (s.take i).all isAlnumHyphen = true := all_take_of_le_takeWhile s i hi
      have ha2 : (mid2.take j).all isAlnumHyphen = true :=
        all_take_of_le_takeWhile mid2 j hj
      simp [List.all_append, List.all_cons, ha1, ha2, isAlnumHyphen_of_isLetterHyphen hcl]
    · exact ⟨c, by simp, hcl⟩
  · rintro ⟨u, rfl, hall, hx⟩
    obtain ⟨d, c, e, rfl, hc, hd⟩ := split_first u hx
    simp only [List.all_append, List.all_cons, Bool.and_eq_true] at hall
    have htw : ((d ++ c :: e) ++ rem).takeWhile isAlnumHyphen =
        d ++ (c :: (e ++ rem)).takeWhile isAlnumHyphen := by
      rw [List.append_assoc, List.cons_append]
      exact takeWhile_append_of_all hall.1
    refine ⟨c :: (e ++ rem), ?_, ?_⟩
    · rw [Rm_mStarChr]
      refine ⟨d.length, ?_, ?_⟩
      · rw [htw, List.length_append]
        exact Nat.le_add_right _ _
      · rw [List.append_assoc, List.cons_append, List.drop_left]
    · rw [Rm_mSeq]
      refine ⟨e ++ rem, ?_, ?_⟩
      · rw [Rm_mChr]
        exact ⟨c, rfl, hc⟩
      · rw [Rm_mStarChr]
        refine ⟨e.length, ?_, ?_⟩
        · rw [takeWhile_append_of_all hall.2.2]
          rw [List.length_append]
          exact Nat.le_add_right _ _
        · rw [List.drop_left]

/-- One pre-release identifier of the source regex and one of the
amended grammar accept exactly the same decompositions. -/
theorem sameRems_preId : SameRems preIdM specUniPreIdM := by
  intro s rem
  show Rm (mAlt _ (mAlt _ _)) s rem ↔ Rm (mAlt (mAlt _ _) _) s rem
  rw [Rm_mAlt, Rm_mAlt, Rm_mAlt, Rm_mAlt, Rm_token_digitStar, Rm_token_alnumStar]
  tauto

/-- The source pattern and the amended grammar accept exactly the same
decompositions of every input. -/
theorem sameRems_semver : SameRems semverM specUniVersionM := by
  have hPre : SameRems preReleaseM specUniPreReleaseM :=
    sameRems_mSeq sameRems_preId
      (sameRems_mStar (sameRems_mSeq (sameRems_refl _) sameRems_preId))
  have hBuild : SameRems buildM specBuildM := sameRems_refl _
  have hPreOpt : SameRems
      (mOpt (mSeq (mOpt (mChr fun c => c == '-')) (mGrp "pre_release" preReleaseM)))
      (mOpt (mSeq (mOpt (mChr fun c => c == '-')) specUniPreReleaseM)) :=
    sameRems_mOpt (sameRems_mSeq (sameRems_refl _)
      (sameRems_trans (sameRems_grp_drop _ _) hPre))
  have hBuildOpt : SameRems
      (mOpt (mSeq (mChr fun c => c == '+') (mGrp "build_metadata" buildM)))
      (mOpt (mSeq (mChr fun c => c == '+') specBuildM)) :=
    sameRems_mOpt (sameRems_mSeq (sameRems_refl _)
      (sameRems_trans (sameRems_grp_drop _ _) hBuild))
  intro s rem
  simp only [semverM, specUniVersionM, specUniCoreM, Rm_mSeq, Rm_mGrp]
  constructor
  · rintro ⟨m1, h1, m2, h2, m3, h3, m4, h4, m5, h5, m6, h6, h7⟩
    exact ⟨m5, ⟨m1, h1, m2, h2, m3, h3, m4, h4, h5⟩, m6,
      (hPreOpt m5 m6).mp h6, (hBuildOpt m6 rem).mp h7⟩
  · rintro ⟨a, ⟨n1, h1, n2, h2, n3, h3, n4, h4, h5⟩, b, h6, h7⟩
    exact ⟨n1, h1, n2, h2, n3, h3, n4, h4, a, h5, b,
      (hPreOpt a b).mpr h6, (hBuildOpt b rem).mpr h7⟩

/-! ### From the matcher to `parse_semver` and `Version.ofString` -/

theorem mem_of_head?_eq_some {α : Type} {l : List α} {a : α} (h : l.head? = some a) :
    a ∈ l := by
  cases l with
  | nil => cases h
  | cons x t =>
    simp only [List.head?_cons, Option.some.injEq] at h
    subst h
    exact List.mem_cons_self x t

theorem parse_semver_mem {s : String} {caps : Caps} (h : parse_semver s = some caps) :
    ∃ rem, (caps, rem) ∈ semverM s.data ∧ endOfInputOk rem = true := by
  unfold parse_semver at h
  obtain ⟨pair, hpair, hfst⟩ := Option.map_eq_some'.mp h
  have hmem := mem_of_head?_eq_some hpair
  have hf := List.mem_filter.mp hmem
  subst hfst
  exact ⟨pair.2, hf.1, hf.2⟩

theorem parse_isSome_iff (s : String) :
    (parse_semver s).isSome = true ↔ ∃ q ∈ semverM s.data, endOfInputOk q.2 = true := by
  unfold parse_semver
  rcases hh : ((semverM s.data).filter fun q => endOfInputOk q.2).head? with _ | pair
  · rw [hh]
    simp only [Option.map_none', Option.isSome_none]
    constructor
    · intro h
      cases h
    · rintro ⟨q, hq, hok⟩
      have hmem : q ∈ (semverM s.data).filter fun q => endOfInputOk q.2 :=
        List.mem_filter.mpr ⟨hq, hok⟩
      rw [List.head?_eq_none_iff] at hh
      rw [hh] at hmem
      cases hmem
  · rw [hh]
    simp only [Option.map_some', Option.isSome_some, true_iff]
    have hmem := mem_of_head?_eq_some hh
    have hf := List.mem_filter.mp hmem
    exact ⟨pair, hf.1, hf.2⟩

theorem ofString_eval {s : String} {caps : Caps} (h : parse_semver s = some caps)
    {na nb nc : Nat} (hm : pyInt (caps.lookup "major") = some na)
    (hn : pyInt (caps.lookup "minor") = some nb)
    (hp : pyInt (caps.lookup "patch") = some nc) :
    Version.ofString s = .ok
      { major := na, minor := nb, patch := nc,
        pre_release := (caps.lookup "pre_release").map fun l => ⟨l⟩,
        build_metadata := (caps.lookup "build_metadata").map fun l => ⟨l⟩ } := by
  have step1 : Version.ofString s =
      match pyInt (caps.lookup "major"), pyInt (caps.lookup "minor"),
          pyInt (caps.lookup "patch") with
      | some ma, some mi, some pa =>
        VersionResult.ok
          { major := ma, minor := mi, patch := pa,
            pre_release := (caps.lookup "pre_release").map fun l => ⟨l⟩,
            build_metadata := (caps.lookup "build_metadata").map fun l => ⟨l⟩ }
      | _, _, _ => .err (.invalidNumericField s) := by
    unfold Version.ofString
    rw [h]
  rw [step1, hm, hn, hp]

theorem pyInt_digits {l : List Char} (hne : l ≠ []) (hdig : l.all isUniDigit = true) :
    pyInt (some l) = some (digitsToNat l) := by
  have h1 : l.isEmpty = false := by
    cases l with
    | nil => exact absurd rfl hne
    | cons c t => rfl
  have hcond : pyIsDigitStr l = true := by
    unfold pyIsDigitStr
    rw [h1]
    exact hdig
  simp only [pyInt]
  rw [if_pos hcond]

/-- Full description of a successful construction: the input decomposes
into the captured fields (with optional separators and a possibly
unconsumed trailing newline) and the resulting `Version` holds exactly
the numeric values and raw capture strings. -/
theorem ofString_of_parse {s : String} {caps : Caps} (h : parse_semver s = some caps) :
    ∃ (mj mi pa preSeg buildSeg nl : List Char) (preCap buildCap : Option (List Char)),
      s.data = mj ++ '.' :: (mi ++ '.' :: (pa ++ (preSeg ++ (buildSeg ++ nl))))
      ∧ (nl = [] ∨ nl = ['\n'])
      ∧ mj ≠ [] ∧ mj.all isUniDigit = true
      ∧ mi ≠ [] ∧ mi.all isUniDigit = true
      ∧ pa ≠ [] ∧ pa.all isUniDigit = true
      ∧ (match preCap with
         | none => preSeg = []
         | some u => preSeg = u ∨ preSeg = '-' :: u)
      ∧ (match buildCap with
         | none => buildSeg = []
         | some u => buildSeg = '+' :: u)
      ∧ Version.ofString s = .ok
          { major := digitsToNat mj, minor := digitsToNat mi, patch := digitsToNat pa,
            pre_release := preCap.map fun l => ⟨l⟩,
            build_metadata := buildCap.map fun l => ⟨l⟩ } := by
  obtain ⟨rem, hmem, hok⟩ := parse_semver_mem h
  obtain ⟨mj, mi, pa, preSeg, buildSeg, preCap, buildCap, hsplit, hmjne, hmjall, hmine, hmiall,
    hpane, hpaall, hcaps, hpre, hbuild⟩ := semverM_decomp hmem
  have hnl : rem = [] ∨ rem = ['\n'] := by
    have hok' : rem.isEmpty = true ∨ (rem == ['\n']) = true := by
      simpa only [endOfInputOk, Bool.or_eq_true] using hok
    rcases hok' with h1 | h1
    · left
      simpa using h1
    · right
      simpa using h1
  refine ⟨mj, mi, pa, preSeg, buildSeg, rem, preCap, buildCap, hsplit, hnl, hmjne, hmjall,
    hmine, hmiall, hpane, hpaall, hpre, hbuild, ?_⟩
  rcases preCap with _ | u <;> rcases buildCap with _ | ub
  · have hc : caps = [("major", mj), ("minor", mi), ("patch", pa)] := hcaps
    have l1 : caps.lookup "major" = some mj := by rw [hc]; rfl
    have l2 : caps.lookup "minor" = some mi := by rw [hc]; rfl
    have l3 : caps.lookup "patch" = some pa := by rw [hc]; rfl
    have l4 : caps.lookup "pre_release" = none := by rw [hc]; rfl
    have l5 : caps.lookup "build_metadata" = none := by rw [hc]; rfl
    rw [ofString_eval h (by rw [l1]; exact pyInt_digits hmjne hmjall)
      (by rw [l2]; exact pyInt_digits hmine hmiall)
      (by rw [l3]; exact pyInt_digits hpane hpaall), l4, l5]
  · have hc : caps = [("major", mj), ("minor", mi), ("patch", pa),
        ("build_metadata", ub)] := hcaps
    have l1 : caps.lookup "major" = some mj := by rw [hc]; rfl
    have l2 : caps.lookup "minor" = some mi := by rw [hc]; rfl
    have l3 : caps.lookup "patch" = some pa := by rw [hc]; rfl
    have l4 : caps.lookup "pre_release" = none := by rw [hc]; rfl
    have l5 : caps.lookup "build_metadata" = some ub := by rw [hc]; rfl
    rw [ofString_eval h (by rw [l1]; exact pyInt_digits hmjne hmjall)
      (by rw [l2]; exact pyInt_digits hmine hmiall)
      (by rw [l3]; exact pyInt_digits hpane hpaall), l4, l5]
  · have hc : caps = [("major", mj), ("minor", mi), ("patch", pa),
        ("pre_release", u)] := hcaps
    have l1 : caps.lookup "major" = some mj := by rw [hc]; rfl
    have l2 : caps.lookup "minor" = some mi := by rw [hc]; rfl
    have l3 : caps.lookup "patch" = some pa := by rw [hc]; rfl
    have l4 : caps.lookup "pre_release" = some u := by rw [hc]; rfl
    have l5 : caps.lookup "build_metadata" = none := by rw [hc]; rfl
    rw [ofString_eval h (by rw [l1]; exact pyInt_digits hmjne hmjall)
      (by rw [l2]; exact pyInt_digits hmine hmiall)
      (by rw [l3]; exact pyInt_digits hpane hpaall), l4, l5]
  · have hc : caps = [("major", mj), ("minor", mi), ("patch", pa),
        ("pre_release", u), ("build_metadata", ub)] := hcaps
    have l1 : caps.lookup "major" = some mj := by rw [hc]; rfl
    have l2 : caps.lookup "minor" = some mi := by rw [hc]; rfl
    have l3 : caps.lookup "patch" = some pa := by rw [hc]; rfl
    have l4 : caps.lookup "pre_release" = some u := by rw [hc]; rfl
    have l5 : caps.lookup "build_metadata" = some ub := by rw [hc]; rfl
    rw [ofString_eval h (by rw [l1]; exact pyInt_digits hmjne hmjall)
      (by rw [l2]; exact pyInt_digits hmine hmiall)
      (by rw [l3]; exact pyInt_digits hpane hpaall), l4, l5]

/-! ### Comparator lemmas -/

theorem lt_eq_false_of_eq {a b : Version} (h : Version.eq a b = true) :
    Version.lt a b = false := by
  unfold Version.lt
  rw [if_pos h]

theorem pyStrLt_irrefl (x : List Char) : pyStrLt x x = false := by
  induction x with
  | nil => rfl
  | cons c cs ih => simp [pyStrLt, ih]

theorem identLtPy_eq_specIdentLower (x y : List Char) : identLtPy x y = specIdentLower x y := by
  unfold identLtPy specIdentLower
  cases hx : pyIsDigitStr x <;> cases hy : pyIsDigitStr y <;> simp [hx, hy]

theorem specIdentLower_irrefl (x : List Char) : specIdentLower x x = false := by
  unfold specIdentLower
  cases hx : pyIsDigitStr x <;> simp [hx, pyStrLt_irrefl]

theorem lex_irrefl_specIdent (l : List (List Char)) :
    ¬ List.Lex (fun x y => specIdentLower x y = true) l l := by
  induction l with
  | nil =>
    intro h
    cases h
  | cons x xs ih =>
    intro h
    cases h with
    | rel hr =>
      rw [specIdentLower_irrefl] at hr
      cases hr
    | cons h' => exact ih h'

/-- The zip loop plus final length comparison of `compare_pre_release` is
exactly the lexicographic extension of the identifier rule. -/
theorem comparePartsPy_iff_lex : ∀ xs ys : List (List Char),
    comparePartsPy xs ys = true ↔
      List.Lex (fun x y => specIdentLower x y = true) xs ys := by
  intro xs
  induction xs with
  | nil =>
    intro ys
    cases ys with
    | nil =>
      constructor
      · intro h
        simp [comparePartsPy] at h
      · intro h
        cases h
    | cons y ys =>
      constructor
      · intro _
        exact List.Lex.nil
      · intro _
        simp [comparePartsPy]
  | cons x xs ih =>
    intro ys
    cases ys with
    | nil =>
      constructor
      · intro h
        simp [comparePartsPy] at h
      · intro h
        cases h
    | cons y ys =>
      by_cases hxy : x = y
      · subst hxy
        have hred : comparePartsPy (x :: xs) (x :: ys) = comparePartsPy xs ys := by
          simp [comparePartsPy]
        rw [hred]
        constructor
        · intro h
          exact List.Lex.cons ((ih ys).mp h)
        · intro h
          have h' : List.Lex (fun x y => specIdentLower x y = true) xs ys := by
            cases h with
            | cons h' => exact h'
            | rel hr =>
              rw [specIdentLower_irrefl] at hr
              cases hr
          exact (ih ys).mpr h'
      · have hbeq : (x == y) = false := by simp [hxy]
        have hred : comparePartsPy (x :: xs) (y :: ys) = identLtPy x y := by
          simp [comparePartsPy, hbeq]
        rw [hred, identLtPy_eq_specIdentLower]
        constructor
        · intro h
          exact List.Lex.rel h
        · intro h
          cases h with
          | rel hr => exact hr
          | cons h' => exact absurd rfl hxy

/-! ### Claim theorems -/

/-- C1: for Versions constructed from valid version strings, exactly one
of `a < b`, `a == b`, `a > b` holds (with `>`, `<=`, `!=` as derived by
`functools.total_ordering` and the default `__ne__`); `<` and `==` are
mutually exclusive; `a <= b` iff `a < b` or `a == b`; `a != b` iff not
`a == b`. -/
theorem ordering_consistency (sa sb : String) (a b : Version)
    (ha : Version.ofString sa = .ok a) (hb : Version.ofString sb = .ok b) :
    ((Version.lt a b = true ∧ Version.eq a b = false ∧ Version.gt a b = false)
      ∨ (Version.eq a b = true ∧ Version.lt a b = false ∧ Version.gt a b = false)
      ∨ (Version.gt a b = true ∧ Version.lt a b = false ∧ Version.eq a b = false))
    ∧ ¬(Version.lt a b = true ∧ Version.eq a b = true)
    ∧ (Version.le a b = true ↔ (Version.lt a b = true ∨ Version.eq a b = true))
    ∧ (Version.ne a b = true ↔ ¬(Version.eq a b = true)) := by
  refine ⟨?_, ?_, ?_, ?_⟩
  · cases he : Version.eq a b with
    | true =>
      have hl := lt_eq_false_of_eq he
      refine Or.inr (Or.inl ⟨rfl, hl, ?_⟩)
      simp [Version.gt, hl, he]
    | false =>
      cases hl : Version.lt a b with
      | true =>
        refine Or.inl ⟨rfl, rfl, ?_⟩
        simp [Version.gt, hl, he]
      | false =>
        refine Or.inr (Or.inr ⟨?_, rfl, rfl⟩)
        simp [Version.gt, hl, he]
  · rintro ⟨hl, he⟩
    rw [lt_eq_false_of_eq he] at hl
    cases hl
  · simp [Version.le]
  · simp [Version.ne]

/-- C1 witness: the theorem applied to the two versions built from
`"1.0.0"` and `"1.0.1"`. -/
theorem ordering_consistency_witness :
    Version.ofString "1.0.0" = .ok ⟨1, 0, 0, none, none⟩
    ∧ Version.ofString "1.0.1" = .ok ⟨1, 0, 1, none, none⟩
    ∧ (((Version.lt ⟨1, 0, 0, none, none⟩ ⟨1, 0, 1, none, none⟩ = true
          ∧ Version.eq ⟨1, 0, 0, none, none⟩ ⟨1, 0, 1, none, none⟩ = false
          ∧ Version.gt ⟨1, 0, 0, none, none⟩ ⟨1, 0, 1, none, none⟩ = false)
        ∨ (Version.eq ⟨1, 0, 0, none, none⟩ ⟨1, 0, 1, none, none⟩ = true
          ∧ Version.lt ⟨1, 0, 0, none, none⟩ ⟨1, 0, 1, none, none⟩ = false
          ∧ Version.gt ⟨1, 0, 0, none, none⟩ ⟨1, 0, 1, none, none⟩ = false)
        ∨ (Version.gt ⟨1, 0, 0, none, none⟩ ⟨1, 0, 1, none, none⟩ = true
          ∧ Version.lt ⟨1, 0, 0, none, none⟩ ⟨1, 0, 1, none, none⟩ = false
          ∧ Version.eq ⟨1, 0, 0, none, none⟩ ⟨1, 0, 1, none, none⟩ = false))
      ∧ ¬(Version.lt ⟨1, 0, 0, none, none⟩ ⟨1, 0, 1, none, none⟩ = true
          ∧ Version.eq ⟨1, 0, 0, none, none⟩ ⟨1, 0, 1, none, none⟩ = true)
      ∧ (Version.le ⟨1, 0, 0, none, none⟩ ⟨1, 0, 1, none, none⟩ = true
          ↔ (Version.lt ⟨1, 0, 0, none, none⟩ ⟨1, 0, 1, none, none⟩ = true
            ∨ Version.eq ⟨1, 0, 0, none, none⟩ ⟨1, 0, 1, none, none⟩ = true))
      ∧ (Version.ne ⟨1, 0, 0, none, none⟩ ⟨1, 0, 1, none, none⟩ = true
          ↔ ¬(Version.eq ⟨1, 0, 0, none, none⟩ ⟨1, 0, 1, none, none⟩ = true))) :=
  ⟨by decide, by decide,
    ordering_consistency "1.0.0" "1.0.1" ⟨1, 0, 0, none, none⟩ ⟨1, 0, 1, none, none⟩
      (by decide) (by decide)⟩

/-- C4: for Versions the program constructs, with equal `major`,
`minor`, `patch`: the side with a pre-release alone is lower, and when
both have pre-releases, `<` is exactly the lexicographic comparison of
the dot-split identifier sequences under the claimed rule (numeric pairs
as integers — including Unicode-digit identifiers such as `"1٣"` —
numeric below alphanumeric, non-numeric pairs as plain strings, strict
prefix lower). -/
theorem pre_release_rule (sa sb : String) (a b : Version)
    (ha : Version.ofString sa = .ok a) (hb : Version.ofString sb = .ok b)
    (h1 : a.major = b.major) (h2 : a.minor = b.minor) (h3 : a.patch = b.patch) :
    (a.pre_release ≠ none → b.pre_release = none → Version.lt a b = true)
    ∧ (∀ p q : String, a.pre_release = some p → b.pre_release = some q →
        (Version.lt a b = true ↔
          List.Lex (fun x y => specIdentLower x y = true)
            (pySplitDot p.data) (pySplitDot q.data))) := by
  constructor
  · intro hpa hpb
    rcases ha : a.pre_release with _ | p
    · exact absurd ha hpa
    · have heq : Version.eq a b = false := by
        simp [Version.eq, ha, hpb]
      simp [Version.lt, Version.compare_pre_release, heq, h1, h2, h3, ha, hpb]
  · intro p q hap hbq
    by_cases hpq : p = q
    · subst hpq
      have heq : Version.eq a b = true := by
        simp [Version.eq, h1, h2, h3, hap, hbq]
      rw [lt_eq_false_of_eq heq]
      constructor
      · intro hf
        cases hf
      · intro h
        exact absurd h (lex_irrefl_specIdent _)
    · have heq : Version.eq a b = false := by
        simp [Version.eq, h1, h2, h3, hap, hbq]
        exact hpq
      have hcpr : Version.lt a b = comparePartsPy (pySplitDot p.data) (pySplitDot q.data) := by
        simp [Version.lt, Version.compare_pre_release, heq, h1, h2, h3, hap, hbq]
      rw [hcpr]
      exact comparePartsPy_iff_lex _ _

/-- C4 witness: the theorem applied to the Versions constructed from
`"1.0.0-alpha"` and `"1.0.0"`. -/
theorem pre_release_rule_witness :
    Version.ofString "1.0.0-alpha" = .ok ⟨1, 0, 0, some "alpha", none⟩
    ∧ Version.ofString "1.0.0" = .ok ⟨1, 0, 0, none, none⟩
    ∧ (Version.major ⟨1, 0, 0, some "alpha", none⟩ = Version.major ⟨1, 0, 0, none, none⟩)
    ∧ (Version.minor ⟨1, 0, 0, some "alpha", none⟩ = Version.minor ⟨1, 0, 0, none, none⟩)
    ∧ (Version.patch ⟨1, 0, 0, some "alpha", none⟩ = Version.patch ⟨1, 0, 0, none, none⟩)
    ∧ ((Version.pre_release ⟨1, 0, 0, some "alpha", none⟩ ≠ none →
          Version.pre_release ⟨1, 0, 0, none, none⟩ = none →
          Version.lt ⟨1, 0, 0, some "alpha", none⟩ ⟨1, 0, 0, none, none⟩ = true)
      ∧ (∀ p q : String,
          Version.pre_release ⟨1, 0, 0, some "alpha", none⟩ = some p →
          Version.pre_release ⟨1, 0, 0, none, none⟩ = some q →
          (Version.lt ⟨1, 0, 0, some "alpha", none⟩ ⟨1, 0, 0, none, none⟩ = true ↔
            List.Lex (fun x y => specIdentLower x y = true)
              (pySplitDot p.data) (pySplitDot q.data)))) :=
  ⟨by decide, by decide, rfl, rfl, rfl,
    pre_release_rule "1.0.0-alpha" "1.0.0" ⟨1, 0, 0, some "alpha", none⟩
      ⟨1, 0, 0, none, none⟩ (by decide) (by decide) rfl rfl rfl⟩

/-- C3 counterexample: `"1.0.0-"` does NOT fail construction — the
optional dash lets the dash itself be consumed as the pre-release
identifier, so a Version with `pre_release = "-"` is produced. -/
theorem malformed_rejection_counterexample :
    Version.ofString "1.0.0-" = .ok ⟨1, 0, 0, some "-", none⟩ := by decide

/-- C3 amended: `"1.0"` and `"01.0.0"` fail with the malformed-version
error carrying the input, while `"1.0.0-"` and `"1.0.0-+build"`
construct successfully with pre-release `"-"` (and build `"build"`). -/
theorem malformed_rejection_amended :
    Version.ofString "1.0" = .err (.malformedVersion "1.0")
    ∧ Version.ofString "01.0.0" = .err (.malformedVersion "01.0.0")
    ∧ Version.ofString "1.0.0-" = .ok ⟨1, 0, 0, some "-", none⟩
    ∧ Version.ofString "1.0.0-+build" = .ok ⟨1, 0, 0, some "-", some "build"⟩ :=
  ⟨by decide, by decide, by decide, by decide⟩

/-- C5: the eight versions of the full chain scenario parse to the listed
field values and each element is strictly below the next, so sorting by
the defined order reproduces exactly that sequence. -/
theorem sort_chain :
    Version.ofString "1.0.0-alpha" = .ok ⟨1, 0, 0, some "alpha", none⟩
    ∧ Version.ofString "1.0.0-alpha.1" = .ok ⟨1, 0, 0, some "alpha.1", none⟩
    ∧ Version.ofString "1.0.0-alpha.beta" = .ok ⟨1, 0, 0, some "alpha.beta", none⟩
    ∧ Version.ofString "1.0.0-beta" = .ok ⟨1, 0, 0, some "beta", none⟩
    ∧ Version.ofString "1.0.0-beta.2" = .ok ⟨1, 0, 0, some "beta.2", none⟩
    ∧ Version.ofString "1.0.0-beta.11" = .ok ⟨1, 0, 0, some "beta.11", none⟩
    ∧ Version.ofString "1.0.0-rc.1" = .ok ⟨1, 0, 0, some "rc.1", none⟩
    ∧ Version.ofString "1.0.0" = .ok ⟨1, 0, 0, none, none⟩
    ∧ Version.lt ⟨1, 0, 0, some "alpha", none⟩ ⟨1, 0, 0, some "alpha.1", none⟩ = true
    ∧ Version.lt ⟨1, 0, 0, some "alpha.1", none⟩ ⟨1, 0, 0, some "alpha.beta", none⟩ = true
    ∧ Version.lt ⟨1, 0, 0, some "alpha.beta", none⟩ ⟨1, 0, 0, some "beta", none⟩ = true
    ∧ Version.lt ⟨1, 0, 0, some "beta", none⟩ ⟨1, 0, 0, some "beta.2", none⟩ = true
    ∧ Version.lt ⟨1, 0, 0, some "beta.2", none⟩ ⟨1, 0, 0, some "beta.11", none⟩ = true
    ∧ Version.lt ⟨1, 0, 0, some "beta.11", none⟩ ⟨1, 0, 0, some "rc.1", none⟩ = true
    ∧ Version.lt ⟨1, 0, 0, some "rc.1", none⟩ ⟨1, 0, 0, none, none⟩ = true := by decide

/-- C6: equality is exactly same core plus literally identical raw
pre-release text; `build_metadata` affects neither `==` nor `<`, and the
quoted build-metadata examples compare equal. -/
theorem equality_ignores_build :
    (∀ a b : Version, Version.eq a b = true ↔
      (a.major = b.major ∧ a.minor = b.minor ∧ a.patch = b.patch
        ∧ a.pre_release = b.pre_release))
    ∧ (∀ (a b : Version) (bm₁ bm₂ : Option String),
        Version.eq { a with build_metadata := bm₁ } { b with build_metadata := bm₂ }
            = Version.eq a b
        ∧ Version.lt { a with build_metadata := bm₁ } { b with build_metadata := bm₂ }
            = Version.lt a b)
    ∧ Version.ofString "1.0.0" = .ok ⟨1, 0, 0, none, none⟩
    ∧ Version.ofString "1.0.0+build.1" = .ok ⟨1, 0, 0, none, some "build.1"⟩
    ∧ Version.ofString "1.0.0+build.2" = .ok ⟨1, 0, 0, none, some "build.2"⟩
    ∧ Version.eq ⟨1, 0, 0, none, none⟩ ⟨1, 0, 0, none, some "build.1"⟩ = true
    ∧ Version.eq ⟨1, 0, 0, none, some "build.1"⟩ ⟨1, 0, 0, none, some "build.2"⟩ = true := by
  refine ⟨?_, ?_, by decide, by decide, by decide, by decide, by decide⟩
  · intro a b
    simp [Version.eq, and_assoc]
  · intro a b bm₁ bm₂
    exact ⟨rfl, rfl⟩

/-- C7: `"1.0.1b"` (no dash) parses with `pre_release = "b"`, the second
string parses as shown, and the claimed comparison holds through the
patch numbers 1 < 10. -/
theorem relaxed_separator :
    Version.ofString "1.0.1b" = .ok ⟨1, 0, 1, some "b", none⟩
    ∧ Version.ofString "1.0.10-alpha.beta" = .ok ⟨1, 0, 10, some "alpha.beta", none⟩
    ∧ Version.lt ⟨1, 0, 1, some "b", none⟩ ⟨1, 0, 10, some "alpha.beta", none⟩ = true := by
  decide

/-- C10: `"1.0.00"` is accepted: the patch capture backtracks to `"0"`
and the second zero is consumed as the numeric pre-release identifier
`"0"`. -/
theorem leading_zero_patch_relaxation :
    Version.ofString "1.0.00" = .ok ⟨1, 0, 0, some "0", none⟩ := by decide

/-- Successful parses always construct: shared helper for C2 and C9. -/
theorem ofString_ok_of_parse_isSome {s : String} (h : (parse_semver s).isSome = true) :
    ∃ v, Version.ofString s = .ok v := by
  obtain ⟨caps, hcaps⟩ := Option.isSome_iff_exists.mp h
  obtain ⟨_, _, _, _, _, _, _, _, _, _, _, _, _, _, _, _, _, _, hok⟩ :=
    ofString_of_parse hcaps
  exact ⟨_, hok⟩

/-- C9: whenever the regex matches, the three numeric captures convert,
so construction succeeds — the defensive `InvalidNumericField` branch is
unreachable. -/
theorem parser_success_constructs (s : String) :
    ((parse_semver s).isSome = true → ∃ v, Version.ofString s = .ok v)
    ∧ ∀ t : String, Version.ofString s ≠ .err (.invalidNumericField t) := by
  constructor
  · exact ofString_ok_of_parse_isSome
  · intro t hcontra
    rcases hp : parse_semver s with _ | caps
    · have hm : Version.ofString s = .err (.malformedVersion s) := by
        unfold Version.ofString
        rw [hp]
      rw [hm] at hcontra
      simp at hcontra
    · obtain ⟨_, _, _, _, _, _, _, _, _, _, _, _, _, _, _, _, _, _, hok⟩ :=
        ofString_of_parse hp
      rw [hok] at hcontra
      simp at hcontra

/-- C9 witness: the theorem applied at `"1.2.3"`, whose parse succeeds. -/
theorem parser_success_constructs_witness :
    (parse_semver "1.2.3").isSome = true
    ∧ (∃ v, Version.ofString "1.2.3" = .ok v)
    ∧ ∀ t : String, Version.ofString "1.2.3" ≠ .err (.invalidNumericField t) :=
  ⟨by decide, (parser_success_constructs "1.2.3").1 (by decide),
    (parser_success_constructs "1.2.3").2⟩

/-- C8: every accepted string splits into exactly the captured pieces:
the three digit fields at their positions (whose numeric values become
`major`, `minor`, `patch`), the pre-release text minus its optional
introducing dash, and the build text minus its introducing plus sign
(`nl` is the trailing newline Python's `$` may leave unconsumed). -/
theorem parse_roundtrip (s : String) (v : Version) (h : Version.ofString s = .ok v) :
    ∃ (mj mi pa preSeg buildSeg nl : List Char),
      s.data = mj ++ '.' :: (mi ++ '.' :: (pa ++ (preSeg ++ (buildSeg ++ nl))))
      ∧ (nl = [] ∨ nl = ['\n'])
      ∧ mj.all isUniDigit = true ∧ mi.all isUniDigit = true ∧ pa.all isUniDigit = true
      ∧ v.major = digitsToNat mj ∧ v.minor = digitsToNat mi ∧ v.patch = digitsToNat pa
      ∧ (match v.pre_release with
         | none => preSeg = []
         | some p => preSeg = p.data ∨ preSeg = '-' :: p.data)
      ∧ (match v.build_metadata with
         | none => buildSeg = []
         | some b => buildSeg = '+' :: b.data) := by
  rcases hp : parse_semver s with _ | caps
  · have hm : Version.ofString s = .err (.malformedVersion s) := by
      unfold Version.ofString
      rw [hp]
    rw [hm] at h
    exact absurd h (by simp)
  · obtain ⟨mj, mi, pa, preSeg, buildSeg, nl, preCap, buildCap, hsplit, hnl, hmjne, hmjall,
      hmine, hmiall, hpane, hpaall, hpre, hbuild, hok⟩ := ofString_of_parse hp
    have h2 := h.symm.trans hok
    injection h2 with hv
    subst hv
    refine ⟨mj, mi, pa, preSeg, buildSeg, nl, hsplit, hnl, hmjall, hmiall, hpaall,
      rfl, rfl, rfl, ?_, ?_⟩
    · rcases preCap with _ | u
      · exact hpre
      · exact hpre
    · rcases buildCap with _ | ub
      · exact hbuild
      · exact hbuild

/-- C8 witness: the theorem applied to `"1.2.3-rc.1+b5"`. -/
theorem parse_roundtrip_witness :
    Version.ofString "1.2.3-rc.1+b5" = .ok ⟨1, 2, 3, some "rc.1", some "b5"⟩
    ∧ ∃ (mj mi pa preSeg buildSeg nl : List Char),
      "1.2.3-rc.1+b5".data = mj ++ '.' :: (mi ++ '.' :: (pa ++ (preSeg ++ (buildSeg ++ nl))))
      ∧ (nl = [] ∨ nl = ['\n'])
      ∧ mj.all isUniDigit = true ∧ mi.all isUniDigit = true ∧ pa.all isUniDigit = true
      ∧ (⟨1, 2, 3, some "rc.1", some "b5"⟩ : Version).major = digitsToNat mj
      ∧ (⟨1, 2, 3, some "rc.1", some "b5"⟩ : Version).minor = digitsToNat mi
      ∧ (⟨1, 2, 3, some "rc.1", some "b5"⟩ : Version).patch = digitsToNat pa
      ∧ (match (⟨1, 2, 3, some "rc.1", some "b5"⟩ : Version).pre_release with
         | none => preSeg = []
         | some p => preSeg = p.data ∨ preSeg = '-' :: p.data)
      ∧ (match (⟨1, 2, 3, some "rc.1", some "b5"⟩ : Version).build_metadata with
         | none => buildSeg = []
         | some b => buildSeg = '+' :: b.data) :=
  ⟨by decide,
    parse_roundtrip "1.2.3-rc.1+b5" ⟨1, 2, 3, some "rc.1", some "b5"⟩ (by decide)⟩

/-- C2 counterexample: construction succeeds on `"1.0.0\n"` (Python `$`
also matches just before a final newline) and on `"1٣.0.0"` (Python `\d`
matches the Arabic-Indic digit THREE), although neither string matches
the grammar of spec section 4.1 in full, so the claimed equivalence
fails in both directions of deviation. -/
theorem grammar_refinement_counterexample :
    Version.ofString "1.0.0\n" = .ok ⟨1, 0, 0, none, none⟩
    ∧ ((specVersionM "1.0.0\n".data).any fun q => q.2.isEmpty) = false
    ∧ Version.ofString "1٣.0.0" = .ok ⟨13, 0, 0, none, none⟩
    ∧ ((specVersionM "1٣.0.0".data).any fun q => q.2.isEmpty) = false :=
  ⟨by decide, by decide, by decide, by decide⟩

/-- C2 amended: construction succeeds exactly when the spec-4.1 grammar,
with `numeric_id`'s digits after the leading `[1-9]` widened to Unicode
decimal digits (the implementation's `\d`), matches the whole string up
to an optionally unconsumed single trailing newline (remainder `[]` or
`['\n']`); on every other input it fails with the malformed-version
error carrying the offending input. -/
theorem grammar_refinement (s : String) :
    ((∃ v, Version.ofString s = .ok v) ↔
      ∃ q ∈ specUniVersionM s.data, (q.2 = [] ∨ q.2 = ['\n']))
    ∧ ((¬ ∃ q ∈ specUniVersionM s.data, (q.2 = [] ∨ q.2 = ['\n'])) →
        Version.ofString s = .err (.malformedVersion s)) := by
  have hiff : (∃ v, Version.ofString s = .ok v) ↔
      ∃ q ∈ specUniVersionM s.data, (q.2 = [] ∨ q.2 = ['\n']) := by
    constructor
    · rintro ⟨v, hv⟩
      rcases hp : parse_semver s with _ | caps
      · have hm : Version.ofString s = .err (.malformedVersion s) := by
          unfold Version.ofString
          rw [hp]
        rw [hm] at hv
        exact absurd hv (by simp)
      · obtain ⟨rem, hmem, hok⟩ := parse_semver_mem hp
        have hrm : Rm semverM s.data rem := ⟨caps, hmem⟩
        obtain ⟨c, hc⟩ := (sameRems_semver s.data rem).mp hrm
        refine ⟨(c, rem), hc, ?_⟩
        have hok' : rem.isEmpty = true ∨ (rem == ['\n']) = true := by
          simpa only [endOfInputOk, Bool.or_eq_true] using hok
        rcases hok' with h1 | h1
        · left
          simpa using h1
        · right
          simpa using h1
    · rintro ⟨q, hq, hrem⟩
      have hrm : Rm specUniVersionM s.data q.2 := ⟨q.1, hq⟩
      obtain ⟨c, hc⟩ := (sameRems_semver s.data q.2).mpr hrm
      have hok : endOfInputOk q.2 = true := by
        rcases hrem with h1 | h1 <;> simp [endOfInputOk, h1]
      exact ofString_ok_of_parse_isSome ((parse_isSome_iff s).mpr ⟨(c, q.2), hc, hok⟩)
  refine ⟨hiff, ?_⟩
  intro hn
  rcases hp : parse_semver s with _ | caps
  · unfold Version.ofString
    rw [hp]
  · exact absurd (hiff.mp (ofString_ok_of_parse_isSome (by rw [hp]; rfl))) hn

/-- C2 witness: the theorem applied at `"abc"`, which no grammar
derivation accepts, so construction reports the malformed input. -/
theorem grammar_refinement_witness :
    (¬ ∃ q ∈ specUniVersionM "abc".data, (q.2 = [] ∨ q.2 = ['\n']))
    ∧ Version.ofString "abc" = .err (.malformedVersion "abc") := by
  have hn : ¬ ∃ q ∈ specUniVersionM "abc".data, (q.2 = [] ∨ q.2 = ['\n']) := by decide
  exact ⟨hn, (grammar_refinement "abc").2 hn⟩
